import Mathlib

/-!
Shallow embedding of the Elegoo Smart Car v4 controller
(`src/elegoo_robot_car4/car.py`) and proofs about its command codec,
movement-state machine, lazy command queue, response framer, rotation
controller, direction scanner, homing loop and disconnect behaviour.

Conventions of the embedding:
* Wire traffic is recorded in a trace: `sent` is the list of decoded
  payloads handed to `socket.sendall`, `awaited` the list of confirmation
  patterns passed to the blocking receive.  The blocking receive itself is
  modelled separately, over explicit received chunks.
* Sensor reads (`get_mpu_data`, `get_ultrasonic_value`,
  `find_best_front_direction` results inside the homing loop) are
  abstracted as pure oracles, exactly as the repository's own unit tests
  mock them.  Their request frames carry fresh random handles and are not
  part of the recorded movement trace.
* Python floats are modelled as rationals; all numeric values reached in
  the verified scenarios are exactly representable.
-/

namespace RobotCar

/-- A command record as built by the `Car` methods: handle `H`, opcode `N`
and the optional integer parameters `D1`, `D2` (insertion order is
`H, N, D1, D2`, matching the Python dict literals). -/
structure Cmd where
  h : String
  n : Nat
  d1 : Option Int := none
  d2 : Option Int := none
deriving DecidableEq

/-- `json.dumps` of a command dict with keys in insertion order and the
default separators (a comma-space between items, a colon-space inside an
item).  This is the exact payload given to `socket.sendall`. -/
def dumps (c : Cmd) : String :=
  "\x7b\"H\": \"" ++ c.h ++ "\", \"N\": " ++ toString c.n
    ++ (match c.d1 with
        | none => ""
        | some v => ", \"D1\": " ++ toString v)
    ++ (match c.d2 with
        | none => ""
        | some v => ", \"D2\": " ++ toString v)
    ++ "\x7d"

/-- `Car.__no_response_cmds`: handles that are fire-and-forget. -/
def noResponseCmds : List String :=
  ["stop", "fw", "bw", "l", "r", "fl", "fr", "bl", "br"]

/-- The confirmation pattern `"{" + label + "_ok}"` awaited for commands
that need a reply. -/
def confirmPat (label : String) : String := "\x7b" ++ label ++ "_ok\x7d"

/-- The mutable controller state of a `Car` instance together with the
instrumented wire trace: `state` is `self.state`, `cmdQueue` is
`self.__cmd_queue`, `headAngle` is `self.__head_angle`; `sent` and
`awaited` record the outbound frames and the awaited confirmations. -/
structure CarState where
  state : String
  cmdQueue : List Cmd
  headAngle : Int
  sent : List String
  awaited : List String
deriving DecidableEq

/-- Controller state right after `Car.__init__` (`state = 'stop'`, empty
queue, head angle 0) with an empty wire trace. -/
def initCar : CarState :=
  { state := "stop", cmdQueue := [], headAngle := 0, sent := [], awaited := [] }

/-- `Car.__process_cmd`: lazy commands are queued; otherwise the frame is
sent and, unless the handle is fire-and-forget, the `{<handle>_ok}`
confirmation is awaited.  Note that neither `self.state` nor
`self.__head_angle` is touched on this path. -/
def processCmd (car : CarState) (cmd : Cmd) (lazy : Bool) : CarState :=
  if lazy then { car with cmdQueue := car.cmdQueue ++ [cmd] }
  else
    let car1 := { car with sent := car.sent ++ [dumps cmd] }
    if cmd.h ∈ noResponseCmds then car1
    else { car1 with awaited := car1.awaited ++ [confirmPat cmd.h] }

/-- The canonical movement label derived in `Car.__change_state_to`: the
handle, suffixed with `_<D2>` when a `D2` parameter is present. -/
def derivedLabel (c : Cmd) : String :=
  match c.d2 with
  | none => c.h
  | some v => c.h ++ "_" ++ toString v

/-- `Car.__change_state_to`: derive the label; if it equals the current
state, return unchanged (dedup); otherwise send the relabelled frame,
await `{<label>_ok}` when the base handle needs a reply, update the
tracked head angle for `set_head` commands, and set `self.state`. -/
def changeStateTo (car : CarState) (stateCmd : Cmd) : CarState :=
  let newState := derivedLabel stateCmd
  let cmd1 := { stateCmd with h := newState }
  if newState = car.state then car
  else
    let c1 := { car with sent := car.sent ++ [dumps cmd1] }
    let c2 :=
      if stateCmd.h ∈ noResponseCmds then c1
      else { c1 with awaited := c1.awaited ++ [confirmPat newState] }
    let c3 :=
      if stateCmd.h = "set_head"
      then { c2 with headAngle := stateCmd.d2.getD 0 - 90 }
      else c2
    { c3 with state := newState }

/-- The `stop` command record (`Car.stop`). -/
def stopCmd : Cmd := { h := "stop", n := 100 }

/-- `Car.stop`. -/
def stop (car : CarState) (lazy : Bool) : CarState :=
  processCmd car stopCmd lazy

/-- `Car.forward`. -/
def forward (car : CarState) (speed : Int) (lazy : Bool) : CarState :=
  processCmd car { h := "fw", n := 102, d1 := some 1, d2 := some speed } lazy

/-- `Car.left`. -/
def left (car : CarState) (speed : Int) (lazy : Bool) : CarState :=
  processCmd car { h := "l", n := 102, d1 := some 3, d2 := some speed } lazy

/-- `np.clip` on integers. -/
def clipI (x lo hi : Int) : Int := min (max x lo) hi

/-- The `set_head` command built by `Car.set_head_angle` for a requested
angle: the angle is clamped to `[-80, 80]` and the wire parameter `D2`
carries the clamped angle plus the fixed 90-degree bias. -/
def setHeadCmdFor (angle : Int) : Cmd :=
  { h := "set_head", n := 5, d1 := some 1, d2 := some (clipI angle (-80) 80 + 90) }

/-- `Car.set_head_angle`. -/
def setHeadAngle (car : CarState) (angle : Int) (lazy : Bool) : CarState :=
  processCmd car (setHeadCmdFor angle) lazy

/-- `Car.get_head_angle`. -/
def getHeadAngle (car : CarState) : Int := car.headAngle

/-- `Car.move`: with an empty queue issue an immediate stop; with more
than one queued command clear the queue; then drain the queue through
`__change_state_to`. -/
def move (car : CarState) : CarState :=
  if car.cmdQueue.length = 0 then stop car false
  else if 1 < car.cmdQueue.length then { car with cmdQueue := [] }
  else car.cmdQueue.foldl changeStateTo { car with cmdQueue := [] }

/-- A reachable controller state whose movement label is `"fw_40"`:
obtained from a fresh controller by one lazy `forward(40)` and a flush. -/
def carFw40 : CarState := move (forward initCar 40 true)

/-- `carFw40` with two further lazy commands queued. -/
def carTwoQueued : CarState := left (forward carFw40 100 true) 50 true

/-! ### Response framer (`Car.__recv_until_confirmation`) -/

/-- Anchored match of a literal pattern at the start of a buffer. -/
def startsWith : List Char → List Char → Bool
  | [], _ => true
  | _ :: _, [] => false
  | c :: cs, d :: ds => c == d && startsWith cs ds

/-- `re.search` for a literal pattern: does the pattern occur anywhere in
the buffer? -/
def hasSub (tok : List Char) : List Char → Bool
  | [] => startsWith tok []
  | c :: t => startsWith tok (c :: t) || hasSub tok t

/-- `re.sub(pattern, '', s)` for a literal pattern: one left-to-right
pass removing every non-overlapping occurrence. -/
def subAll (tok : List Char) (s : List Char) : List Char :=
  if _htok : tok = [] then s
  else
    match s with
    | [] => []
    | c :: t =>
      if startsWith tok (c :: t) then subAll tok ((c :: t).drop tok.length)
      else c :: subAll tok t
termination_by s.length
decreasing_by
  · simp only [List.length_drop, List.length_cons]
    have h2 : 0 < tok.length := List.length_pos.mpr _htok
    omega
  · simp only [List.length_cons]
    omega

/-- The fixed heartbeat noise token `\x7bHeartbeat\x7d`
(`Car.__heartbeat_re`). -/
def hbTok : List Char := "\x7bHeartbeat\x7d".toList

/-- The fixed bare acknowledgment noise token `\x7bok\x7d`
(`Car.__ok_re`). -/
def okTok : List Char := "\x7bok\x7d".toList

/-- `Car.__recv_until_confirmation`, for a literal expected pattern,
over an explicit list of received chunks: search the buffer; while
absent, append the next chunk, strip every heartbeat token, then every
bare-ack token, and search again.  On a match, remove every occurrence
of the pattern from the buffer and return the matched text together with
the remaining buffer.  `none` models blocking forever on an exhausted
chunk list. -/
def recvUntilConfirmation (tok : List Char) :
    List Char → List (List Char) → Option (List Char × List Char)
  | buf, chunks =>
    if hasSub tok buf then some (tok, subAll tok buf)
    else
      match chunks with
      | [] => none
      | c :: rest =>
        recvUntilConfirmation tok (subAll okTok (subAll hbTok (buf ++ c))) rest

/-- The literal confirmation token used in the framer examples. -/
def tokXOk : List Char := "\x7bx_ok\x7d".toList

/-- A buffer holding two byte-for-byte-identical confirmations around
other payload bytes. -/
def bufTwoOcc : List Char :=
  "AB".toList ++ tokXOk ++ "CD".toList ++ tokXOk ++ "E".toList

/-- The literal stop confirmation token. -/
def tokStopOk : List Char := "\x7bstop_ok\x7d".toList

/-! ### Rotation controller (`Car.turn_by`) -/

/-- `scipy.integrate.trapezoid([w0, w1], dx=d)`. -/
def trapezoid (w0 w1 d : ℚ) : ℚ := (w0 + w1) / 2 * d

/-- Timestamp of the i-th MPU sample of a sample source (seconds). -/
def tAt (mpu : ℕ → ℚ × ℚ) (i : ℕ) : ℚ := (mpu i).1

/-- Bias-corrected z angular velocity of the i-th MPU sample. -/
def wAt (mpu : ℕ → ℚ × ℚ) (gOff : ℚ) (i : ℕ) : ℚ := (mpu i).2 - gOff

/-- Cumulative angle after integrating the first `n` sample pairs by the
trapezoidal rule (the running `alpha` of `turn_by`). -/
def alphaSeq (mpu : ℕ → ℚ × ℚ) (gOff : ℚ) : ℕ → ℚ
  | 0 => 0
  | n + 1 =>
    alphaSeq mpu gOff n +
      trapezoid (wAt mpu gOff n) (wAt mpu gOff (n + 1))
        (tAt mpu (n + 1) - tAt mpu n)

/-- The sampling loop of `turn_by`: while `|alpha| < target`, take the
next sample, integrate the pair by the trapezoidal rule and advance.
Returns the total number of MPU reads and the final cumulative angle;
`none` models a loop that outlives the supplied fuel. -/
def turnLoop (mpu : ℕ → ℚ × ℚ) (gOff target : ℚ) :
    ℕ → ℕ → ℚ → ℚ → ℚ → Option (ℕ × ℚ)
  | 0, _, _, _, _ => none
  | fuel + 1, k, t0, w0, alpha =>
    if |alpha| < target then
      turnLoop mpu gOff target fuel (k + 1) (tAt mpu k) (wAt mpu gOff k)
        (alpha + trapezoid w0 (wAt mpu gOff k) (tAt mpu k - t0))
    else some (k, alpha)

/-- `Car.turn_by`: choose the in-place turn direction from the sign of
the requested angle (speed hardcoded to 50), take the initial sample,
send the turn frame, run the integration loop against the absolute
target, then send an immediate stop.  MPU request/response traffic is
abstracted into the `mpu` sample oracle, as the repository tests do. -/
def turnBy (mpu : ℕ → ℚ × ℚ) (gOff : ℚ) (angle : ℚ) (fuel : ℕ)
    (car : CarState) : Option (CarState × ℕ × ℚ) :=
  let turnCmd : Cmd :=
    { h := if 0 < angle then "l" else "r", n := 102
      d1 := some (if 0 < angle then 3 else 4), d2 := some 50 }
  let car1 := processCmd car turnCmd false
  match turnLoop mpu gOff |angle| fuel 1 (tAt mpu 0) (wAt mpu gOff 0) 0 with
  | none => none
  | some (k, alpha) => some (stop car1 false, k, alpha)

/-- The synthetic MPU source of the concrete C6 scenario: 1-second
spacing starting at t = 30 s, constant 10 degrees/second from t = 30 on
(the samples before t = 30 are consumed by the startup calibration and
average to a zero gyro offset). -/
def mpuEx : ℕ → ℚ × ℚ := fun k => (30 + (k : ℚ), 10)

/-! ### Direction scanner (`Car.find_best_front_direction`) -/

/-- Python `range(a, b, 10)` for the positive step 10. -/
def scanAngles (a b : Int) : List Int :=
  if b ≤ a then []
  else (List.range ((b - a + 9).toNat / 10)).map fun i : ℕ => a + 10 * (i : Int)

/-- `np.argwhere(l == m).ravel()`: the indices holding the value `m`. -/
def argIdxs (l : List ℚ) (m : ℚ) : List ℕ :=
  (List.range l.length).filter fun i => l.getD i 0 = m

/-- `np.mean` of a list of indices, as an exact rational. -/
def meanIdx (idxs : List ℕ) : ℚ :=
  (idxs.map fun i => (i : ℚ)).sum / (idxs.length : ℚ)

/-- Python `round`: round half to even. -/
def roundHalfEven (q : ℚ) : Int :=
  if q - (⌊q⌋ : ℚ) < 1 / 2 then ⌊q⌋
  else if 1 / 2 < q - (⌊q⌋ : ℚ) then ⌊q⌋ + 1
  else if ⌊q⌋ % 2 = 0 then ⌊q⌋ else ⌊q⌋ + 1

/-- `ind_best_dir`: the rounded mean index of the tied maxima. -/
def bestIdx (ds : List ℚ) (m : ℚ) : ℕ :=
  (roundHalfEven (meanIdx (argIdxs ds m))).toNat

/-- The clipped, 10-degree-stepped scan angles of
`find_best_front_direction`. -/
def scanList (rng : Int × Int) : List Int :=
  scanAngles (clipI rng.1 (-80) 80) (clipI rng.2 (-80) 80 + 10)

/-- The scan loop: per angle an immediate `set_head_angle`, then one
ultrasonic reading through the `dist` oracle (`get_ultrasonic_value` is
retried on timeout until it returns). -/
def scanFold (dist : Int → ℚ) (car : CarState) (angles : List Int) :
    CarState × List ℚ :=
  angles.foldl
    (fun acc ang => (setHeadAngle acc.1 ang false, acc.2 ++ [dist ang])) (car, [])

/-- `Car.find_best_front_direction`; `none` models the `ValueError`
raised by `.max()` on an empty distance array. -/
def findBest (car : CarState) (rng : Int × Int) (dist : Int → ℚ) :
    Option (CarState × Int × ℚ) :=
  let angles := scanList rng
  let s := scanFold dist car angles
  match s.2.max? with
  | none => none
  | some m =>
      some (setHeadAngle s.1 0 false,
        angles.getD (bestIdx s.2 m) 0, s.2.getD (bestIdx s.2 m) 0)

/-- The constant 50 cm distance oracle used in the tie-break witness. -/
def distEx : Int → ℚ := fun _ => 50

/-! ### Homing controller (`Car.turn_to_best_direction`) -/

/-- Running state of `turn_to_best_direction`: `k` indexes the next scan
result from the oracle, `angle` and `dist` are the current best scan
pair, `turns` records every `turn_by` argument in order, and `iters`
records, for each completed outer trial, how many inner turn-and-rescan
trials it ran. -/
structure HState where
  k : ℕ
  angle : Int
  dist : ℚ
  turns : List Int
  iters : List ℕ
deriving DecidableEq

/-- The inner loop: up to 3 trials while `|angle| > 10`:
`turn_by(angle)` then a re-scan of the narrowed range `(-30, 30)`
through the scan-result oracle; `cnt` counts the trials run. -/
def innerLoop (scans : ℕ → Int × ℚ) (s : HState) (cnt : ℕ) : ℕ → HState × ℕ
  | 0 => (s, cnt)
  | n + 1 =>
    if 10 < |s.angle| then
      innerLoop scans
        { s with
            k := s.k + 1
            angle := (scans s.k).1
            dist := (scans s.k).2
            turns := s.turns ++ [s.angle] } (cnt + 1) n
    else (s, cnt)

/-- One outer trial: run the inner loop, then pivot by 90 degrees when
it ended with `|angle| > 10` or a best distance under 30 cm, recording
the number of inner trials. -/
def outerStep (scans : ℕ → Int × ℚ) (s : HState) : HState :=
  let p := innerLoop scans s 0 3
  let s2 := if 10 < |p.1.angle| ∨ p.1.dist < 30
    then { p.1 with turns := p.1.turns ++ [90] } else p.1
  { s2 with iters := s2.iters ++ [p.2] }

/-- The outer loop: up to 4 trials while `|angle| > 10`. -/
def outerLoop (scans : ℕ → Int × ℚ) (s : HState) : ℕ → HState
  | 0 => s
  | n + 1 =>
    if 10 < |s.angle| then outerLoop scans (outerStep scans s) n
    else s

/-- `Car.turn_to_best_direction`: find the initial best direction when
no angle is supplied (the scan-result oracle abstracts
`find_best_front_direction`), then run the bounded homing loops.  When
an angle is supplied, the Python local `dist` is unbound; the
placeholder 0 is never consulted because the inner loop always runs at
least once before the pivot test reads `dist`. -/
def turnToBestDirection (scans : ℕ → Int × ℚ) (angle0 : Option Int) : HState :=
  match angle0 with
  | none =>
    outerLoop scans
      { k := 1, angle := (scans 0).1, dist := (scans 0).2, turns := [], iters := [] } 4
  | some a =>
    outerLoop scans { k := 0, angle := a, dist := 0, turns := [], iters := [] } 4

/-- A scan oracle that keeps reporting best angle 25 at distance
100 cm: the homing loop can never converge on it. -/
def scansEx : ℕ → Int × ℚ := fun _ => (25, 100)

/-! ### Disconnect (`Car.disconnect`) -/

/-- `Car.disconnect`: `self.socket.close()` wrapped in a bare
`try/except: pass` — the outcome of the transport close operation is
swallowed and the method always returns normally. -/
def disconnect (closeResult : Except String Unit) : Except String Unit :=
  match closeResult with
  | Except.ok _ => Except.ok ()
  | Except.error _ => Except.ok ()

/-! ### Theorems -/

/-- C1 (counterexample): in immediate (non-lazy) mode there is no
deduplication at all: calling `forward(speed=40)` twice on a fresh
controller performs two `sendall` calls, not one, and neither payload
carries the speed-suffixed label `fw_40`. -/
theorem immediate_dedup_counterexample :
    (forward (forward initCar 40 false) 40 false).sent.length = 2 ∧
    ¬ (forward (forward initCar 40 false) 40 false).sent.length = 1 ∧
    (forward (forward initCar 40 false) 40 false).sent ≠
      ["\x7b\"H\": \"fw_40\", \"N\": 102, \"D1\": 1, \"D2\": 40\x7d"] := by
  decide

/-- C1 (amended): deduplication happens on the lazy-flush path: enqueuing
`forward(speed=40, lazy=True)` and flushing with `move()`, twice, sends
exactly one wire frame, whose payload encodes
`H fw_40, N 102, D1 1, D2 40`, awaits no confirmation and leaves the
movement label `fw_40`; the immediate path instead sends one frame per
call. -/
theorem lazy_dedup_sends_once :
    (move (forward (move (forward initCar 40 true)) 40 true)).sent =
      ["\x7b\"H\": \"fw_40\", \"N\": 102, \"D1\": 1, \"D2\": 40\x7d"] ∧
    (move (forward (move (forward initCar 40 true)) 40 true)).awaited = [] ∧
    (move (forward (move (forward initCar 40 true)) 40 true)).state = "fw_40" ∧
    (forward (forward initCar 40 false) 40 false).sent.length = 2 := by
  decide

/-- C2 (counterexample): flushing a queue holding two commands while the
movement label is `fw_40` sends nothing and leaves the label `fw_40`:
the tracked label does not become (or stay) `stop`. -/
theorem move_many_queued_state_counterexample :
    carTwoQueued.cmdQueue.length = 2 ∧
    (move carTwoQueued).sent = carTwoQueued.sent ∧
    (move carTwoQueued).state = "fw_40" ∧
    (move carTwoQueued).state ≠ "stop" ∧
    (move carTwoQueued).cmdQueue = [] := by
  decide

/-- C2 (amended): for every controller state, `move()` empties the queue;
with zero queued commands it sends the stop frame and leaves the label
unchanged; with exactly one queued command it leaves the label equal to
the command's derived label, sending the relabelled frame exactly when
that label differs from the current one; with two or more queued commands
it sends nothing and leaves the label unchanged. -/
theorem move_flush_trichotomy (car : CarState) :
    (move car).cmdQueue = [] ∧
    (match car.cmdQueue with
     | [] => (move car).sent = car.sent ++ [dumps stopCmd] ∧
         (move car).state = car.state
     | [c] => (move car).state = derivedLabel c ∧
         (if derivedLabel c = car.state
          then (move car).sent = car.sent
          else (move car).sent = car.sent ++ [dumps { c with h := derivedLabel c }])
     | _ :: _ :: _ => (move car).sent = car.sent ∧ (move car).state = car.state) := by
  rcases hq : car.cmdQueue with _ | ⟨c, _ | ⟨d, rest⟩⟩
  · simp [move, hq, stop, processCmd, stopCmd, noResponseCmds]
  · simp only [move, hq, List.length_cons, List.length_nil, List.foldl]
    by_cases hd : derivedLabel c = car.state
    · simp [changeStateTo, hd]
    · simp [changeStateTo, hd]
      constructor <;> (repeat' split) <;> rfl
  · simp [move, hq]

/-- C3 (counterexample): on the immediate path `set_head_angle(40)` does
not update the tracked head angle: `get_head_angle` still returns 0, not
the clamped requested angle 40. -/
theorem set_head_immediate_tracking_counterexample :
    getHeadAngle (setHeadAngle initCar 40 false) = 0 ∧
    getHeadAngle (setHeadAngle initCar 40 false) ≠ clipI 40 (-80) 80 := by
  decide

/-- The result of `Car.__change_state_to` on a non-deduplicated
`set_head` command: frame sent, confirmation awaited, tracked head angle
set from the sent `D2` minus 90, state set to the derived label. -/
theorem changeStateTo_set_head (car : CarState) (c : Cmd)
    (hne : derivedLabel c ≠ car.state) (hs : c.h = "set_head") :
    changeStateTo car c =
      { car with
        state := derivedLabel c
        headAngle := c.d2.getD 0 - 90
        sent := car.sent ++ [dumps { c with h := derivedLabel c }]
        awaited := car.awaited ++ [confirmPat (derivedLabel c)] } := by
  simp [changeStateTo, hne, hs, show "set_head" ∉ noResponseCmds by decide]

/-- C3 (amended): for every requested angle `a`, both paths place
`clip(a, -80, 80) + 90` on the wire as `D2`; the immediate path awaits
`set_head_ok` but leaves the tracked head angle unchanged; the
lazy-flush path updates the tracked head angle to `clip(a, -80, 80)`
when the derived label differs from the current state, and sends nothing
(tracked angle unchanged) otherwise. -/
theorem set_head_angle_wire_and_tracking (a : Int) (car : CarState)
    (hq : car.cmdQueue = []) :
    (setHeadAngle car a false).sent = car.sent ++ [dumps (setHeadCmdFor a)] ∧
    (setHeadAngle car a false).awaited = car.awaited ++ [confirmPat "set_head"] ∧
    getHeadAngle (setHeadAngle car a false) = getHeadAngle car ∧
    (derivedLabel (setHeadCmdFor a) ≠ car.state →
      getHeadAngle (move (setHeadAngle car a true)) = clipI a (-80) 80 ∧
      (move (setHeadAngle car a true)).sent =
        car.sent ++ [dumps { setHeadCmdFor a with h := derivedLabel (setHeadCmdFor a) }]) ∧
    (derivedLabel (setHeadCmdFor a) = car.state →
      (move (setHeadAngle car a true)).sent = car.sent ∧
      getHeadAngle (move (setHeadAngle car a true)) = getHeadAngle car) := by
  have hm : move (setHeadAngle car a true) =
      changeStateTo { car with cmdQueue := [] } (setHeadCmdFor a) := by
    simp [move, setHeadAngle, processCmd, hq]
  refine ⟨?_, ?_, ?_, ?_, ?_⟩
  · simp [setHeadAngle, processCmd, setHeadCmdFor, noResponseCmds]
  · simp [setHeadAngle, processCmd, setHeadCmdFor, noResponseCmds, confirmPat]
  · simp [setHeadAngle, processCmd, setHeadCmdFor, noResponseCmds, getHeadAngle]
  · intro hne
    rw [hm, changeStateTo_set_head { car with cmdQueue := [] } (setHeadCmdFor a)
      hne rfl]
    refine ⟨?_, rfl⟩
    simp [getHeadAngle, setHeadCmdFor]
  · intro heq
    rw [hm]
    simp only [changeStateTo]
    rw [if_pos heq]
    exact ⟨rfl, rfl⟩

/-- C3 (witness): setting 200 through the lazy flush yields tracked head
angle 80 and wire `D2 = 170`; the immediate path sends the same wire
value but leaves the tracked angle at 0. -/
theorem set_head_angle_witness :
    getHeadAngle (move (setHeadAngle initCar 200 true)) = 80 ∧
    (setHeadAngle initCar 200 false).sent =
      ["\x7b\"H\": \"set_head\", \"N\": 5, \"D1\": 1, \"D2\": 170\x7d"] ∧
    getHeadAngle (setHeadAngle initCar 200 false) = 0 := by
  have h := set_head_angle_wire_and_tracking 200 initCar rfl
  refine ⟨(h.2.2.2.1 (by decide)).1.trans (by decide), ?_, ?_⟩
  · rw [h.1]; decide
  · rw [h.2.2.1]; decide

theorem startsWith_append (tok r : List Char) :
    startsWith tok (tok ++ r) = true := by
  induction tok with
  | nil => rfl
  | cons a as ih => simp [startsWith, ih]

theorem startsWith_eq_false_of_head (tok : List Char) (h : tok ≠ [])
    (c : Char) (t : List Char) (hc : c ∉ tok) :
    startsWith tok (c :: t) = false := by
  cases tok with
  | nil => exact absurd rfl h
  | cons a as =>
    have hac : ¬ a = c := fun he => hc (he ▸ List.mem_cons_self a as)
    simp [startsWith, hac]

theorem hasSub_nil (tok : List Char) (h : tok ≠ []) :
    hasSub tok [] = false := by
  cases tok with
  | nil => exact absurd rfl h
  | cons a as => rfl

theorem hasSub_self_append (tok r : List Char) :
    hasSub tok (tok ++ r) = true := by
  cases tok with
  | nil =>
    cases r with
    | nil => rfl
    | cons c t => rfl
  | cons a as =>
    have h1 : startsWith (a :: as) (a :: (as ++ r)) = true := by
      simpa using startsWith_append (a :: as) r
    simp [hasSub, h1]

theorem hasSub_of_middle (tok p r : List Char) :
    hasSub tok (p ++ tok ++ r) = true := by
  induction p with
  | nil => simpa using hasSub_self_append tok r
  | cons c t ih =>
    have h2 : hasSub tok (t ++ (tok ++ r)) = true := by
      simpa [List.append_assoc] using ih
    simp [hasSub, h2]

theorem hasSub_eq_false_of_disjoint (tok s : List Char) (h : tok ≠ [])
    (hd : ∀ c ∈ s, c ∉ tok) : hasSub tok s = false := by
  induction s with
  | nil => exact hasSub_nil tok h
  | cons c t ih =>
    have h1 := startsWith_eq_false_of_head tok h c t (hd c (List.mem_cons_self c t))
    have h2 := ih fun x hx => hd x (List.mem_cons_of_mem c hx)
    simp [hasSub, h1, h2]

theorem drop_length_append (p r : List Char) : (p ++ r).drop p.length = r := by
  induction p with
  | nil => rfl
  | cons a as ih => simp [ih]

theorem subAll_nil (tok : List Char) : subAll tok [] = [] := by
  rw [subAll.eq_def]
  split <;> rfl

theorem subAll_cons (tok : List Char) (h : tok ≠ []) (c : Char) (t : List Char) :
    subAll tok (c :: t) =
      if startsWith tok (c :: t)
      then subAll tok ((c :: t).drop tok.length)
      else c :: subAll tok t := by
  rw [subAll.eq_def, dif_neg h]

theorem subAll_cons_of_not_prefixed (tok : List Char) (h : tok ≠ [])
    (c : Char) (t : List Char) (hs : startsWith tok (c :: t) = false) :
    subAll tok (c :: t) = c :: subAll tok t := by
  rw [subAll_cons tok h c t, if_neg (by simp [hs])]

theorem subAll_tok_append (tok r : List Char) (h : tok ≠ []) :
    subAll tok (tok ++ r) = subAll tok r := by
  cases tok with
  | nil => exact absurd rfl h
  | cons a as =>
    have hsw : startsWith (a :: as) (a :: (as ++ r)) = true := by
      simpa using startsWith_append (a :: as) r
    rw [List.cons_append, subAll_cons (a :: as) h a (as ++ r), if_pos hsw]
    congr 1
    simp [List.drop_succ_cons, drop_length_append as r]

theorem subAll_self (tok : List Char) (h : tok ≠ []) :
    subAll tok tok = [] := by
  have h1 := subAll_tok_append tok [] h
  rw [List.append_nil] at h1
  rw [h1, subAll_nil]

theorem subAll_eq_self (tok s : List Char) (h : hasSub tok s = false) :
    subAll tok s = s := by
  have htok : tok ≠ [] := by
    intro he
    subst he
    cases s with
    | nil => exact absurd h (by simp [hasSub, startsWith])
    | cons c t => exact absurd h (by simp [hasSub, startsWith])
  induction s with
  | nil => exact subAll_nil tok
  | cons c t ih =>
    have hor : (startsWith tok (c :: t) || hasSub tok t) = false := h
    have h1 : startsWith tok (c :: t) = false := (Bool.or_eq_false_iff.mp hor).1
    have h2 : hasSub tok t = false := (Bool.or_eq_false_iff.mp hor).2
    rw [subAll_cons_of_not_prefixed tok htok c t h1, ih h2]

theorem subAll_append_of_disjoint (tok p s : List Char) (h : tok ≠ [])
    (hp : ∀ c ∈ p, c ∉ tok) :
    subAll tok (p ++ s) = p ++ subAll tok s := by
  induction p with
  | nil => rfl
  | cons c t ih =>
    have h1 := startsWith_eq_false_of_head tok h c (t ++ s)
      (hp c (List.mem_cons_self c t))
    rw [List.cons_append, subAll_cons_of_not_prefixed tok h c (t ++ s) h1,
      ih fun x hx => hp x (List.mem_cons_of_mem c hx)]
    rfl

theorem recv_found (tok buf : List Char) (chunks : List (List Char))
    (h : hasSub tok buf = true) :
    recvUntilConfirmation tok buf chunks = some (tok, subAll tok buf) := by
  rw [recvUntilConfirmation.eq_def]
  simp [h]

theorem recv_step (tok buf : List Char) (hnf : hasSub tok buf = false)
    (c : List Char) (rest : List (List Char)) :
    recvUntilConfirmation tok buf (c :: rest) =
      recvUntilConfirmation tok (subAll okTok (subAll hbTok (buf ++ c))) rest := by
  rw [recvUntilConfirmation.eq_def]
  simp [hnf]

theorem recv_target_chunk (tok : List Char) (rest : List (List Char))
    (htok : tok ≠ [])
    (hhb : hasSub hbTok tok = false) (hok : hasSub okTok tok = false) :
    recvUntilConfirmation tok [] (tok :: rest) = some (tok, []) := by
  rw [recv_step tok [] (hasSub_nil tok htok) tok rest]
  rw [List.nil_append, subAll_eq_self hbTok tok hhb, subAll_eq_self okTok tok hok]
  have hfound : hasSub tok tok = true := by
    have h := hasSub_self_append tok []
    rwa [List.append_nil] at h
  rw [recv_found tok tok rest hfound, subAll_self tok htok]

theorem subAll_two_occurrences (tok pre mid post : List Char) (htok : tok ≠ [])
    (hpre : ∀ c ∈ pre, c ∉ tok) (hmid : ∀ c ∈ mid, c ∉ tok)
    (hpost : ∀ c ∈ post, c ∉ tok) :
    subAll tok (pre ++ tok ++ mid ++ tok ++ post) = pre ++ mid ++ post := by
  have hassoc : pre ++ tok ++ mid ++ tok ++ post =
      pre ++ (tok ++ (mid ++ (tok ++ post))) := by
    simp [List.append_assoc]
  rw [hassoc, subAll_append_of_disjoint tok pre _ htok hpre,
    subAll_tok_append tok _ htok, subAll_append_of_disjoint tok mid _ htok hmid,
    subAll_tok_append tok _ htok,
    subAll_eq_self tok post (hasSub_eq_false_of_disjoint tok post htok hpost)]
  simp [List.append_assoc]

/-- C4 (counterexample): with two identical confirmations buffered, the
blocking receive removes both of them (global `re.sub`), leaving
`ABCDE`, not the claimed buffer that still holds the second
occurrence. -/
theorem extract_second_occurrence_counterexample :
    recvUntilConfirmation tokXOk bufTwoOcc [] = some (tokXOk, "ABCDE".toList) ∧
    "ABCDE".toList ≠ "ABCD".toList ++ tokXOk ++ "E".toList := by
  constructor
  · have hfound : hasSub tokXOk bufTwoOcc = true := by
      have h := hasSub_of_middle tokXOk "AB".toList
        ("CD".toList ++ tokXOk ++ "E".toList)
      simpa [bufTwoOcc, List.append_assoc] using h
    rw [recv_found tokXOk bufTwoOcc [] hfound]
    have hsub : subAll tokXOk bufTwoOcc = "AB".toList ++ "CD".toList ++ "E".toList :=
      subAll_two_occurrences tokXOk "AB".toList "CD".toList "E".toList
        (by decide) (by decide) (by decide) (by decide)
    rw [hsub]
    decide
  · decide

/-- C4 (amended): whenever the blocking receive finds the expected
literal pattern in the buffer, it returns the matched text and removes,
in one left-to-right pass, every non-overlapping occurrence of the
pattern from the buffer — in particular a byte-for-byte-identical second
occurrence is consumed as well. -/
theorem extract_consumes_every_occurrence (tok pre mid post : List Char)
    (chunks : List (List Char)) (htok : tok ≠ [])
    (hpre : ∀ c ∈ pre, c ∉ tok) (hmid : ∀ c ∈ mid, c ∉ tok)
    (hpost : ∀ c ∈ post, c ∉ tok) :
    recvUntilConfirmation tok (pre ++ tok ++ mid ++ tok ++ post) chunks =
      some (tok, pre ++ mid ++ post) := by
  have hfound : hasSub tok (pre ++ tok ++ mid ++ tok ++ post) = true := by
    have h := hasSub_of_middle tok pre (mid ++ tok ++ post)
    simpa [List.append_assoc] using h
  rw [recv_found tok _ chunks hfound,
    subAll_two_occurrences tok pre mid post htok hpre hmid hpost]

/-- C4 (witness): concrete two-occurrence extraction through the amended
theorem. -/
theorem extract_consumes_every_occurrence_witness :
    recvUntilConfirmation tokXOk
        ("AB".toList ++ tokXOk ++ "CD".toList ++ tokXOk ++ "E".toList) [] =
      some (tokXOk, "AB".toList ++ "CD".toList ++ "E".toList) :=
  extract_consumes_every_occurrence tokXOk "AB".toList "CD".toList "E".toList []
    (by decide) (by decide) (by decide) (by decide)

/-- C5: noise stripping is idempotent and order-independent: for any
interleaving of heartbeat and bare-ack tokens arriving ahead of the
target token, the blocking receive extracts exactly the same match (and
leaves the same empty buffer) as for the stream holding the target token
alone. -/
theorem noise_stripping_order_independent (tok : List Char)
    (pre rest : List (List Char)) (htok : tok ≠ [])
    (hhb : hasSub hbTok tok = false) (hok : hasSub okTok tok = false)
    (hpre : ∀ n ∈ pre, n = hbTok ∨ n = okTok) :
    recvUntilConfirmation tok [] (pre ++ tok :: rest) = some (tok, []) ∧
    recvUntilConfirmation tok [] [tok] = some (tok, []) := by
  constructor
  · induction pre with
    | nil => exact recv_target_chunk tok rest htok hhb hok
    | cons n p ih =>
      rw [List.cons_append, recv_step tok [] (hasSub_nil tok htok) n _]
      have hclear : subAll okTok (subAll hbTok ([] ++ n)) = [] := by
        rcases hpre n (List.mem_cons_self n p) with h | h <;> subst h
        · rw [List.nil_append, subAll_self hbTok (by decide), subAll_nil]
        · rw [List.nil_append, subAll_eq_self hbTok okTok (by decide),
            subAll_self okTok (by decide)]
      rw [hclear]
      exact ih fun x hx => hpre x (List.mem_cons_of_mem n hx)
  · exact recv_target_chunk tok [] htok hhb hok

/-- C5 (witness): heartbeat, ack, heartbeat ahead of `\x7bstop_ok\x7d`
extract the same match as the lone target. -/
theorem noise_stripping_witness :
    recvUntilConfirmation tokStopOk [] [hbTok, okTok, hbTok, tokStopOk] =
      some (tokStopOk, []) ∧
    recvUntilConfirmation tokStopOk [] [tokStopOk] = some (tokStopOk, []) :=
  noise_stripping_order_independent tokStopOk [hbTok, okTok, hbTok] []
    (by decide) (by decide) (by decide) (by decide)

theorem turnLoop_step (mpu : ℕ → ℚ × ℚ) (gOff target : ℚ) (fuel i : ℕ)
    (h : |alphaSeq mpu gOff i| < target) :
    turnLoop mpu gOff target (fuel + 1) (i + 1) (tAt mpu i) (wAt mpu gOff i)
        (alphaSeq mpu gOff i) =
      turnLoop mpu gOff target fuel (i + 2) (tAt mpu (i + 1))
        (wAt mpu gOff (i + 1)) (alphaSeq mpu gOff (i + 1)) := by
  show (if |alphaSeq mpu gOff i| < target then _ else _) = _
  rw [if_pos h]
  rfl

theorem turnLoop_exit (mpu : ℕ → ℚ × ℚ) (gOff target : ℚ) (fuel i : ℕ)
    (h : ¬ |alphaSeq mpu gOff i| < target) :
    turnLoop mpu gOff target (fuel + 1) (i + 1) (tAt mpu i) (wAt mpu gOff i)
        (alphaSeq mpu gOff i) = some (i + 1, alphaSeq mpu gOff i) := by
  show (if |alphaSeq mpu gOff i| < target then _ else _) = _
  rw [if_neg h]

/-- C6: a positive requested angle whose trapezoidal accumulation stays
below the target for the first two post-initial samples and reaches it at
the third makes `turn_by` perform exactly 4 MPU reads (1 initial + 3
loop iterations), accumulate the angle as the trapezoidal partial sum
`alphaSeq 3`, send exactly the turn frame followed by the stop frame,
and finish with the tracked state still `"stop"` (the state a freshly
constructed controller is in). -/
theorem turn_by_four_reads (mpu : ℕ → ℚ × ℚ) (gOff angle : ℚ)
    (car : CarState) (f : ℕ) (hpos : 0 < angle)
    (h1 : |alphaSeq mpu gOff 1| < angle) (h2 : |alphaSeq mpu gOff 2| < angle)
    (h3 : ¬ |alphaSeq mpu gOff 3| < angle) (hstate : car.state = "stop") :
    turnBy mpu gOff angle (f + 4) car =
      some ({ car with
              sent := car.sent ++
                [dumps { h := "l", n := 102, d1 := some 3, d2 := some 50 },
                 dumps stopCmd] },
            4, alphaSeq mpu gOff 3) ∧
    ({ car with
       sent := car.sent ++
         [dumps { h := "l", n := 102, d1 := some 3, d2 := some 50 },
          dumps stopCmd] } : CarState).state = "stop" := by
  have habs : |angle| = angle := abs_of_pos hpos
  have h0 : |alphaSeq mpu gOff 0| < angle := by
    simpa [alphaSeq] using hpos
  have e1 : turnLoop mpu gOff angle (f + 4) 1 (tAt mpu 0) (wAt mpu gOff 0) 0 =
      turnLoop mpu gOff angle (f + 3) 2 (tAt mpu 1) (wAt mpu gOff 1)
        (alphaSeq mpu gOff 1) :=
    turnLoop_step mpu gOff angle (f + 3) 0 h0
  have e2 := turnLoop_step mpu gOff angle (f + 2) 1 h1
  have e3 := turnLoop_step mpu gOff angle (f + 1) 2 h2
  have e4 := turnLoop_exit mpu gOff angle f 3 h3
  have eloop : turnLoop mpu gOff angle (f + 4) 1 (tAt mpu 0) (wAt mpu gOff 0) 0 =
      some (4, alphaSeq mpu gOff 3) := e1.trans (e2.trans (e3.trans e4))
  constructor
  · simp only [turnBy, habs, if_pos hpos, eloop]
    simp [stop, processCmd, stopCmd, noResponseCmds, List.append_assoc]
  · exact hstate

theorem alphaEx1 : alphaSeq mpuEx 0 1 = 10 := by
  norm_num [alphaSeq, trapezoid, wAt, tAt, mpuEx]

theorem alphaEx2 : alphaSeq mpuEx 0 2 = 20 := by
  norm_num [alphaSeq, trapezoid, wAt, tAt, mpuEx]

theorem alphaEx3 : alphaSeq mpuEx 0 3 = 30 := by
  norm_num [alphaSeq, trapezoid, wAt, tAt, mpuEx]

/-- C6 (witness): requesting 30 degrees against the synthetic source
(velocity 0 before t = 30 s, 10 degrees/second from then on, 1-second
spacing, zero bias) makes `turn_by` read the MPU exactly 4 times,
accumulate exactly 30 degrees, and send the turn and stop frames from a
fresh controller. -/
theorem turn_by_four_reads_witness :
    turnBy mpuEx 0 30 4 initCar =
      some ({ initCar with
              sent := [dumps { h := "l", n := 102, d1 := some 3, d2 := some 50 },
                       dumps stopCmd] },
            4, 30) := by
  have h := (turn_by_four_reads mpuEx 0 30 initCar 0 (by norm_num)
    (by rw [alphaEx1]; norm_num) (by rw [alphaEx2]; norm_num)
    (by rw [alphaEx3]; norm_num) rfl).1
  rw [alphaEx3] at h
  exact h

theorem scanFold_snd (dist : Int → ℚ) (car : CarState) (l : List Int) :
    (scanFold dist car l).2 = l.map dist := by
  suffices h : ∀ (l : List Int) (c0 : CarState) (d0 : List ℚ),
      (l.foldl (fun acc ang => (setHeadAngle acc.1 ang false, acc.2 ++ [dist ang]))
        (c0, d0)).2 = d0 ++ l.map dist by
    simpa [scanFold] using h l car []
  intro l
  induction l with
  | nil => intro c0 d0; simp
  | cons a t ih => intro c0 d0; simp [ih]

theorem roundHalfEven_natCast (n : ℕ) : roundHalfEven (n : ℚ) = n := by
  have hf : ⌊(n : ℚ)⌋ = (n : Int) := by
    rw [show ((n : ℚ)) = ((n : Int) : ℚ) by push_cast; ring, Int.floor_intCast]
  simp [roundHalfEven, hf]

theorem meanIdx_single (i : ℕ) : meanIdx [i] = (i : ℚ) := by
  simp [meanIdx]

theorem scanAngles_nil_iff (a b : Int) : scanAngles a b = [] ↔ b ≤ a := by
  constructor
  · intro h
    by_contra hab
    have hlt : a < b := lt_of_not_le hab
    have h10 : 10 ≤ (b - a + 9).toNat := by omega
    have hpos : 0 < (b - a + 9).toNat / 10 :=
      Nat.div_pos h10 (by norm_num)
    rw [scanAngles, if_neg hab] at h
    have := List.map_eq_nil_iff.mp h
    rw [List.range_eq_nil] at this
    omega
  · intro h
    rw [scanAngles, if_pos h]

/-- C10: `find_best_front_direction` fails to return (the `.max()` of an
empty array raises) exactly when the clipped scan range is reversed or
empty, i.e. when `clip(low) >= clip(high) + 10`; for the reversed range
`(80, -80)` it fails concretely. -/
theorem empty_scan_range_fails :
    (∀ (rng : Int × Int) (dist : Int → ℚ) (car : CarState),
      findBest car rng dist = none ↔
        clipI rng.2 (-80) 80 + 10 ≤ clipI rng.1 (-80) 80) ∧
    findBest initCar (80, -80) (fun _ => (0 : ℚ)) = none := by
  have hmain : ∀ (rng : Int × Int) (dist : Int → ℚ) (car : CarState),
      findBest car rng dist = none ↔
        clipI rng.2 (-80) 80 + 10 ≤ clipI rng.1 (-80) 80 := by
    intro rng dist car
    rw [findBest]
    rcases hm : (scanFold dist car (scanList rng)).2.max? with _ | m
    · rw [List.max?_eq_none_iff, scanFold_snd, List.map_eq_nil_iff, scanList,
        scanAngles_nil_iff] at hm
      simp [hm]
    · have hne : (scanFold dist car (scanList rng)).2 ≠ [] := by
        intro he
        rw [he] at hm
        simp [List.max?] at hm
      rw [scanFold_snd] at hne
      have hx : ¬ (clipI rng.2 (-80) 80 + 10 ≤ clipI rng.1 (-80) 80) := by
        intro hle
        exact hne (by rw [scanList, (scanAngles_nil_iff _ _).mpr hle]; rfl)
      simp [hx]
  exact ⟨hmain, (hmain (80, -80) (fun _ => (0 : ℚ)) initCar).mpr (by decide)⟩

/-- C7: whenever the collected distances have a maximum `m`,
`find_best_front_direction` returns the scan angle and the distance at
the index equal to the mean of all indices achieving `m`, rounded half
to even as Python `round` does; the last wire frame sent before the
pair is returned is the head-reset command (`set_head` with angle 0,
wire `D2 = 90`); when a unique index achieves the maximum, the selected
index is exactly that arg-max. -/
theorem scanner_tie_break (car : CarState) (rng : Int × Int) (dist : Int → ℚ)
    (m : ℚ)
    (hmax : (scanFold dist car (scanList rng)).2.max? = some m) :
    findBest car rng dist =
      some (setHeadAngle (scanFold dist car (scanList rng)).1 0 false,
        (scanList rng).getD (bestIdx (scanFold dist car (scanList rng)).2 m) 0,
        (scanFold dist car (scanList rng)).2.getD
          (bestIdx (scanFold dist car (scanList rng)).2 m) 0) ∧
    (setHeadAngle (scanFold dist car (scanList rng)).1 0 false).sent.getLast? =
      some (dumps (setHeadCmdFor 0)) ∧
    (∀ i : ℕ, argIdxs (scanFold dist car (scanList rng)).2 m = [i] →
      bestIdx (scanFold dist car (scanList rng)).2 m = i) := by
  refine ⟨?_, ?_, ?_⟩
  · simp only [findBest]
    rw [hmax]
  · simp [setHeadAngle, processCmd, setHeadCmdFor, noResponseCmds,
      List.getLast?_concat]
  · intro i hi
    rw [bestIdx, hi, meanIdx_single, roundHalfEven_natCast]
    simp

/-- C7 (witness): scanning `(0, 10)` with equal 50 cm readings at both
angles produces the adjacent tie `[0, 1]`; the mean index 1/2 rounds
half-to-even to 0, so the returned pair is `(0, 50)`. -/
theorem scanner_tie_break_witness :
    findBest initCar (0, 10) distEx =
      some (setHeadAngle (scanFold distEx initCar (scanList (0, 10))).1 0 false,
        0, 50) ∧
    argIdxs (scanFold distEx initCar (scanList (0, 10))).2 50 = [0, 1] ∧
    bestIdx (scanFold distEx initCar (scanList (0, 10))).2 50 = 0 := by
  have hsnd : (scanFold distEx initCar (scanList (0, 10))).2 = [50, 50] := by
    rw [scanFold_snd]; rfl
  have hmax : (scanFold distEx initCar (scanList (0, 10))).2.max? = some 50 := by
    rw [hsnd]; rfl
  have hbest : bestIdx (scanFold distEx initCar (scanList (0, 10))).2 50 = 0 := by
    rw [hsnd, bestIdx, show argIdxs [50, 50] 50 = [0, 1] from rfl,
      show meanIdx [0, 1] = 1 / 2 by norm_num [meanIdx],
      show roundHalfEven (1 / 2) = 0 by norm_num [roundHalfEven]]
    rfl
  have h := (scanner_tie_break initCar (0, 10) distEx 50 hmax).1
  rw [hbest] at h
  refine ⟨?_, by rw [hsnd]; rfl, hbest⟩
  rw [h, hsnd]
  rfl

theorem innerLoop_iters (scans : ℕ → Int × ℚ) :
    ∀ (n : ℕ) (s : HState) (cnt : ℕ), (innerLoop scans s cnt n).1.iters = s.iters := by
  intro n
  induction n with
  | zero => intro s cnt; rfl
  | succ n ih =>
    intro s cnt
    rw [innerLoop]
    split
    · rw [ih]
    · rfl

theorem innerLoop_cnt_le (scans : ℕ → Int × ℚ) :
    ∀ (n : ℕ) (s : HState) (cnt : ℕ), (innerLoop scans s cnt n).2 ≤ cnt + n := by
  intro n
  induction n with
  | zero => intro s cnt; simp [innerLoop]
  | succ n ih =>
    intro s cnt
    rw [innerLoop]
    split
    · exact le_trans (ih _ _) (by omega)
    · simp

theorem innerLoop_turns_le (scans : ℕ → Int × ℚ) :
    ∀ (n : ℕ) (s : HState) (cnt : ℕ),
      (innerLoop scans s cnt n).1.turns.length ≤ s.turns.length + n := by
  intro n
  induction n with
  | zero => intro s cnt; simp [innerLoop]
  | succ n ih =>
    intro s cnt
    rw [innerLoop]
    split
    · refine le_trans (ih _ _) ?_
      simp
      omega
    · simp

example : (turnToBestDirection scansEx none).angle = 25 := by decide
example : (turnToBestDirection scansEx none).iters = [3, 3, 3, 3] := by decide
example : (turnToBestDirection scansEx none).turns =
    [25, 25, 25, 90, 25, 25, 25, 90, 25, 25, 25, 90, 25, 25, 25, 90] := by decide

theorem outerStep_iters (scans : ℕ → Int × ℚ) (s : HState) :
    (outerStep scans s).iters = s.iters ++ [(innerLoop scans s 0 3).2] := by
  rw [outerStep]
  split <;> simp [innerLoop_iters]

theorem outerStep_turns_le (scans : ℕ → Int × ℚ) (s : HState) :
    (outerStep scans s).turns.length ≤ s.turns.length + 4 := by
  rw [outerStep]
  have h := innerLoop_turns_le scans 3 s 0
  split <;> simp <;> omega

theorem outerLoop_iters_le (scans : ℕ → Int × ℚ) :
    ∀ (n : ℕ) (s : HState),
      (outerLoop scans s n).iters.length ≤ s.iters.length + n := by
  intro n
  induction n with
  | zero => intro s; simp [outerLoop]
  | succ n ih =>
    intro s
    rw [outerLoop]
    split
    · refine le_trans (ih _) ?_
      rw [outerStep_iters]
      simp
      omega
    · simp

theorem outerLoop_exit (scans : ℕ → Int × ℚ) :
    ∀ (n : ℕ) (s : HState),
      |(outerLoop scans s n).angle| ≤ 10 ∨
        (outerLoop scans s n).iters.length = s.iters.length + n := by
  intro n
  induction n with
  | zero => intro s; right; simp [outerLoop]
  | succ n ih =>
    intro s
    rw [outerLoop]
    split
    · rcases ih (outerStep scans s) with h | h
      · exact Or.inl h
      · right
        rw [h, outerStep_iters]
        simp
        omega
    · left
      omega

theorem outerLoop_iters_bound (scans : ℕ → Int × ℚ) :
    ∀ (n : ℕ) (s : HState), (∀ c ∈ s.iters, c ≤ 3) →
      ∀ c ∈ (outerLoop scans s n).iters, c ≤ 3 := by
  intro n
  induction n with
  | zero => intro s hs; simpa [outerLoop] using hs
  | succ n ih =>
    intro s hs
    rw [outerLoop]
    split
    · refine ih _ ?_
      rw [outerStep_iters]
      intro c hc
      rcases List.mem_append.mp hc with h | h
      · exact hs c h
      · rw [List.mem_singleton.mp h]
        simpa using innerLoop_cnt_le scans 3 s 0
    · exact fun c hc => hs c hc

theorem outerLoop_turns_le (scans : ℕ → Int × ℚ) :
    ∀ (n : ℕ) (s : HState),
      (outerLoop scans s n).turns.length ≤ s.turns.length + 4 * n := by
  intro n
  induction n with
  | zero => intro s; simp [outerLoop]
  | succ n ih =>
    intro s
    rw [outerLoop]
    split
    · refine le_trans (ih _) ?_
      have := outerStep_turns_le scans s
      omega
    · simp

/-- C8: homing is bounded best effort: for every scan oracle and every
optional starting angle, `turn_to_best_direction` runs at most 4 outer
trials, each with at most 3 inner turn-and-rescan trials (at most 16
`turn_by` calls in total, pivots included), and exits with `|angle| <=
10` or with all 4 outer trials exhausted; on the oracle that always
reports angle 25 it exhausts all trials, issues a 90-degree pivot after
each inner loop, and returns with `|angle| > 10`. -/
theorem homing_bounded (scans : ℕ → Int × ℚ) (angle0 : Option Int) :
    (turnToBestDirection scans angle0).iters.length ≤ 4 ∧
    ((turnToBestDirection scans angle0).iters.all fun c => c ≤ 3) = true ∧
    (turnToBestDirection scans angle0).turns.length ≤ 16 ∧
    (|(turnToBestDirection scans angle0).angle| ≤ 10 ∨
      (turnToBestDirection scans angle0).iters.length = 4) ∧
    (turnToBestDirection scansEx none).angle = 25 ∧
    (turnToBestDirection scansEx none).iters = [3, 3, 3, 3] ∧
    (turnToBestDirection scansEx none).turns =
      [25, 25, 25, 90, 25, 25, 25, 90, 25, 25, 25, 90, 25, 25, 25, 90] := by
  have hrun : ∃ s0 : HState, turnToBestDirection scans angle0 = outerLoop scans s0 4 ∧
      s0.iters = [] ∧ s0.turns = [] := by
    cases angle0 with
    | none => exact ⟨_, rfl, rfl, rfl⟩
    | some a => exact ⟨_, rfl, rfl, rfl⟩
  obtain ⟨s0, hr, hi0, ht0⟩ := hrun
  refine ⟨?_, ?_, ?_, ?_, by decide, by decide, by decide⟩
  · rw [hr]
    have := outerLoop_iters_le scans 4 s0
    rw [hi0] at this
    simpa using this
  · rw [hr, List.all_eq_true]
    intro c hc
    simpa using outerLoop_iters_bound scans 4 s0 (by rw [hi0]; simp) c hc
  · rw [hr]
    have := outerLoop_turns_le scans 4 s0
    rw [ht0] at this
    simpa using this
  · rw [hr]
    have := outerLoop_exit scans 4 s0
    rw [hi0] at this
    simpa using this

/-- C9 (counterexample): an error raised by the transport close is not
propagated: `disconnect` returns normally instead of re-raising it. -/
theorem disconnect_close_error_counterexample :
    disconnect (Except.error "close failed") = Except.ok () ∧
    disconnect (Except.error "close failed") ≠ Except.error "close failed" :=
  ⟨rfl, by simp [disconnect]⟩

/-- C9 (amended): `disconnect` suppresses every close failure (bare
except-pass); no close error ever reaches the caller. -/
theorem disconnect_swallows_close_errors (r : Except String Unit) :
    disconnect r = Except.ok () := by
  cases r <;> rfl

end RobotCar

